import Mathlib

/-!
Verification of the homotopy-continuation (predictor-corrector) engine.

This file shallowly embeds the repository's six Python modules in Lean:

* `homotopy.py` / `predictor_corrector.py`: the abstract track contract and
  the `PredictorCorrectorMethod.trace` orchestration, modelled as an explicit
  state machine over abstract component operations (`PCOps`, `trace`);
* `autohomotopy.py`: the kernel extractor `__ker_unit_basis` (pivoted LU
  elimination, back-substitution, normalization) over exact rationals with
  real-valued normalization, and the attribute-level behaviour of
  `initial_point`;
* `schmitt_trigger.py`: the 2-D track's `tangent` (perpendicular of the
  gradient, sign-oriented against the remembered previous tangent) and the
  two reference convergence criteria;
* `stepadj.py`: the step-adjuster contract and `ConstantStep`.

Python floats are modelled by exact arithmetic (ℚ for the algebraic loops,
ℝ where norms and `tanh` appear).  Division by zero follows Lean's junk-value
convention; where that matters (the zero-pivot path of the kernel extractor)
the relevant theorem only uses the fact, faithful to numpy, that the code
returns a value of the expected shape and raises no exception.
-/

namespace Homotopy

open scoped Matrix

/-! ## numpy primitives on rational vectors -/

/-- Dot product of two vectors, `np.dot` on equal-length 1-D arrays
(zip-truncating, as every call site uses equal lengths). -/
def dot (a b : List ℚ) : ℚ := (List.zipWith (· * ·) a b).sum

/-- Index of the first entry of maximal absolute value, the pivot search of
partial pivoting (LAPACK `idamax`: later entries replace the current best
only when strictly larger). -/
def argmaxAbs : List ℚ → ℕ
  | [] => 0
  | [_] => 0
  | x :: y :: xs =>
    let j := argmaxAbs (y :: xs)
    if |x| < |(y :: xs).getD j 0| then j + 1 else 0

/-- Swap rows `i` and `j` of a matrix held as a list of rows. -/
def swapRows (i j : ℕ) (a : List (List ℚ)) : List (List ℚ) :=
  (a.set i (a.getD j [])).set j (a.getD i [])

/-- Row update of Gaussian elimination: `row - m * prow`, elementwise. -/
def rowSub (row : List ℚ) (m : ℚ) (prow : List ℚ) : List ℚ :=
  row.zipWith (fun x y => x - m * y) prow

/-- Apply the elimination update `row_j ← row_j - (row_j[k]/piv) * pivRow` to
every row of index `> k`; `j0` is the index of the first row of the list. -/
def elimRows (piv : ℚ) (pivRow : List ℚ) (k : ℕ) : ℕ → List (List ℚ) → List (List ℚ)
  | _, [] => []
  | j, row :: rest =>
    (if k < j then rowSub row (row.getD k 0 / piv) pivRow else row)
      :: elimRows piv pivRow k (j + 1) rest

/-- The pivoting half of an elimination step: swap the largest-magnitude
entry of column `k` (searching at and below row `k`) up into row `k`. -/
def elimSwap (k : ℕ) (a : List (List ℚ)) : List (List ℚ) :=
  swapRows k (k + argmaxAbs ((a.drop k).map (fun r => r.getD k 0))) a

/-- One step of right-looking Gaussian elimination with partial pivoting at
column `k`: pick the largest-magnitude pivot in column `k` at or below row
`k`, swap it up, and eliminate the column below it. -/
def elimStep (k : ℕ) (a : List (List ℚ)) : List (List ℚ) :=
  let a1 := elimSwap k a
  let pivRow := a1.getD k []
  elimRows (pivRow.getD k 0) pivRow k 0 a1

/-- Run elimination steps at columns `k, k+1, ...` while fuel lasts. -/
def elimFrom : ℕ → ℕ → List (List ℚ) → List (List ℚ)
  | 0, _, a => a
  | fuel + 1, k, a => elimFrom fuel (k + 1) (elimStep k a)

/-- The upper-triangular factor `u` of `scipy.linalg.lu(mat)` (third return
value): Gaussian elimination with partial pivoting, one step per row. -/
def luU (a : List (List ℚ)) : List (List ℚ) := elimFrom a.length 0 a

/-! ## the kernel extractor `AutoHomotopyTrack.__ker_unit_basis` -/

/-- The back-substitution loop of `__ker_unit_basis` exactly as written:
`for i in reversed(range(rows)): v[i] = -np.dot(v, u[i, :]) / u[i, i]`.
The first argument is the number of rows still to process, so indices are
visited in the order `rows-1, rows-2, ..., 0`.  The dot product runs over
the whole vector `v`, relying on the zero initialization of its leading
entries. -/
def backLoop (u : List (List ℚ)) : ℕ → List ℚ → List ℚ
  | 0, v => v
  | i + 1, v =>
    let ui := u.getD i []
    backLoop u i (v.set i (-dot v ui / ui.getD i 0))

/-- Modelled from the spec's wording of the same loop: `vᵢ = −(v · Uᵢ) / Uᵢᵢ`,
"using only the already-determined trailing entries of v", i.e. the dot
product ranges over indices `> i` only. -/
def backLoopSpec (u : List (List ℚ)) : ℕ → List ℚ → List ℚ
  | 0, v => v
  | i + 1, v =>
    let ui := u.getD i []
    backLoopSpec u i
      (v.set i (-dot (v.drop (i + 1)) (ui.drop (i + 1)) / ui.getD i 0))

/-- The pre-normalization kernel vector of `__ker_unit_basis`:
`ker_basis = np.zeros(mat.shape[1]); ker_basis[-1] = 1`, then the
back-substitution loop against `u = scipy.linalg.lu(mat)[2]`. -/
def kerPre (mat : List (List ℚ)) : List ℚ :=
  let cols := (mat.getD 0 []).length
  backLoop (luU mat) mat.length ((List.replicate cols 0).set (cols - 1) 1)

/-- Same vector built with the spec-worded back-substitution. -/
def kerPreSpec (mat : List (List ℚ)) : List ℚ :=
  let cols := (mat.getD 0 []).length
  backLoopSpec (luU mat) mat.length ((List.replicate cols 0).set (cols - 1) 1)

/-- Euclidean norm of a real vector, `np.linalg.norm`. -/
noncomputable def norm2R (v : List ℝ) : ℝ := Real.sqrt ((v.map (fun x => x ^ 2)).sum)

/-- Entrywise embedding of a rational vector into the reals (the exact model
of a Python float array whose entries happen to be rational). -/
def coeVec (v : List ℚ) : List ℝ := List.map (fun q : ℚ => (q : ℝ)) v

/-- Divide a rational vector by its Euclidean norm, `v /= np.linalg.norm(v)`. -/
noncomputable def normalizeVec (v : List ℚ) : List ℝ :=
  (coeVec v).map (fun x => x / norm2R (coeVec v))

/-- `AutoHomotopyTrack.__ker_unit_basis(mat)`: LU-eliminate, back-substitute
with the last entry pinned to 1, normalize.  The source declares
`rank(mat) = n` as an XXX precondition and contains no pivot check: on a
zero pivot the float division yields junk (numpy: inf/nan; here Lean's
division-by-zero convention) and a vector is still returned — there is no
error path. -/
noncomputable def ker_unit_basis (mat : List (List ℚ)) : List ℝ :=
  normalizeVec (kerPre mat)

/-- Spec-worded variant of the extractor (trailing-entry dot products). -/
noncomputable def ker_unit_basisSpec (mat : List (List ℚ)) : List ℝ :=
  normalizeVec (kerPreSpec mat)

/-- Whether the elimination of `mat` produced a zero pivot `u[i][i]` for some
row `i` — the situation the spec calls `SingularJacobian`. -/
def hasZeroPivot (mat : List (List ℚ)) : Bool :=
  (List.range mat.length).any fun i =>
    decide (((luU mat).getD i []).getD i 0 = 0)

/-- The first `k` columns of `a` are zero strictly below the diagonal. -/
def TriBelow (k : ℕ) (a : List (List ℚ)) : Prop :=
  ∀ i j, j < i → j < k → (a.getD i []).getD j 0 = 0

/-! ## the 2-D Schmitt-trigger track (`schmitt_trigger.py`) -/

/-- Dot product on ℝ², `np.dot` on 2-vectors. -/
def dot2 (a b : ℝ × ℝ) : ℝ := a.1 * b.1 + a.2 * b.2

/-- Euclidean norm on ℝ², `np.linalg.norm` on a 2-vector. -/
noncomputable def norm2 (a : ℝ × ℝ) : ℝ := Real.sqrt (a.1 ^ 2 + a.2 ^ 2)

/-- `SchmittTriggerHomotopyTrack.gradient` at a point `(vo, vi)` (the second
component of a point is the homotopy parameter): the flattened bare 2-vector
`[df_dvo, df_dvi] = [k/2 (1 − tanh²(k(vo/2 − vi))) − 1, −k (1 − tanh²(...))]`. -/
noncomputable def schmittGrad (k : ℝ) (p : ℝ × ℝ) : ℝ × ℝ :=
  (k / 2 * (1 - Real.tanh (k * (p.1 / 2 - p.2)) ^ 2) - 1,
    -k * (1 - Real.tanh (k * (p.1 / 2 - p.2)) ^ 2))

/-- `SchmittTriggerHomotopyTrack.homotopy`: `f(vo, vi) = tanh(k(vo/2 − vi)) − vo`. -/
noncomputable def schmittHomotopy (k : ℝ) (p : ℝ × ℝ) : ℝ :=
  Real.tanh (k * (p.1 / 2 - p.2)) - p.1

/-- The raw (pre-orientation) tangent of `SchmittTriggerHomotopyTrack.tangent`:
`np.array([-grad[1], grad[0]]) / np.linalg.norm(grad)`. -/
noncomputable def schmittRawTangent (k : ℝ) (p : ℝ × ℝ) : ℝ × ℝ :=
  (-(schmittGrad k p).2 / norm2 (schmittGrad k p),
    (schmittGrad k p).1 / norm2 (schmittGrad k p))

/-- `SchmittTriggerHomotopyTrack.tangent`: compute the raw tangent, scale it
by `np.sign(np.dot(self._prev_tan, tan))` (note `np.sign(0) = 0`), remember
the result as the new previous tangent, and return it.  The result is the
pair (returned tangent, new `_prev_tan` state); the two components are equal
because the code stores exactly what it returns. -/
noncomputable def schmittTangent (k : ℝ) (prevTan : ℝ × ℝ) (p : ℝ × ℝ) :
    (ℝ × ℝ) × (ℝ × ℝ) :=
  let tan := schmittRawTangent k p
  let s := Real.sign (dot2 prevTan tan)
  ((s * tan.1, s * tan.2), (s * tan.1, s * tan.2))

/-! ## errors and the predictor-corrector orchestration (`predictor_corrector.py`) -/

/-- Which loop's convergence criterion exceeded its iteration budget (the
two message strings of `FailedToConverge`). -/
inductive DivKind where
  | corrector : DivKind
  | tracer : DivKind
deriving DecidableEq

/-- Errors observable from the engine: `failedToConverge` models the
`FailedToConverge` exception, `notImplemented` models `NotImplementedError`
(the spec's `NotSupported`), `attributeError` models Python's
`AttributeError`.  `outOfFuel` is an artifact of the embedding only — it
marks exhausted loop fuel and is proven unreachable for the fuels of
interest. -/
inductive PyErr where
  | failedToConverge : DivKind → PyErr
  | notImplemented : PyErr
  | attributeError : PyErr
  | outOfFuel : PyErr
deriving DecidableEq

/-- The mutable objects `PredictorCorrectorMethod.trace` touches: the track
(with its remembered previous tangent), the two criterion objects, and the
step adjuster.  Python objects survive a raised exception — the caller keeps
its references — so the embedding returns the final state even on failure. -/
structure PCState (τ σtr σco σad : Type) where
  track : τ
  tracer : σtr
  corr : σco
  adj : σad

/-- The operations `trace` composes, one field per call the source makes.
Fallible operations return `Except`; each is atomic — the state reported
with a failure is the pre-call state, matching the reference criteria below,
which raise before mutating. -/
structure PCOps (π τ σtr σco σad : Type) where
  initial_point : τ → Except PyErr (π × τ)
  tracerReset : σtr → σtr
  tracerConverged : σtr → π → τ → Except PyErr (Bool × σtr)
  corrReset : σco → σco
  corrConverged : σco → π → τ → Except PyErr (Bool × σco)
  predict : σad → τ → π → Except PyErr (π × τ)
  correct : π → τ → Except PyErr (π × τ)
  adjust : σad → τ → π → σad

/-- The inner loop of `trace`:
`while not self.corrector_conv_criterion.converged(estimate, track): estimate = self.correct(estimate, track)`.
One unit of fuel per convergence check. -/
def corrLoop {π τ σtr σco σad : Type} (ops : PCOps π τ σtr σco σad) :
    ℕ → π → PCState τ σtr σco σad → Except PyErr π × PCState τ σtr σco σad
  | 0, _, s => (.error .outOfFuel, s)
  | fuel + 1, est, s =>
    match ops.corrConverged s.corr est s.track with
    | .error e => (.error e, s)
    | .ok (true, c') => (.ok est, { s with corr := c' })
    | .ok (false, c') =>
      match ops.correct est s.track with
      | .error e => (.error e, { s with corr := c' })
      | .ok (est', tr') => corrLoop ops fuel est' { s with corr := c', track := tr' }

/-- The outer loop of `trace` (everything after the initial point and the
tracer reset): check the tracer criterion; if not converged, predict, reset
the corrector criterion, run the correction loop, advance the point, let the
step adjuster observe it, and continue.  One unit of fuel per tracer check. -/
def traceLoop {π τ σtr σco σad : Type} (ops : PCOps π τ σtr σco σad) (fuelI : ℕ) :
    ℕ → π → PCState τ σtr σco σad → Except PyErr π × PCState τ σtr σco σad
  | 0, _, s => (.error .outOfFuel, s)
  | fuelO + 1, point, s =>
    match ops.tracerConverged s.tracer point s.track with
    | .error e => (.error e, s)
    | .ok (true, t') => (.ok point, { s with tracer := t' })
    | .ok (false, t') =>
      match ops.predict s.adj s.track point with
      | .error e => (.error e, { s with tracer := t' })
      | .ok (est, tr') =>
        match corrLoop ops fuelI est
            { s with tracer := t', track := tr', corr := ops.corrReset s.corr } with
        | (.error e, s2) => (.error e, s2)
        | (.ok pt, s2) =>
          traceLoop ops fuelI fuelO pt { s2 with adj := ops.adjust s2.adj s2.track pt }

/-- `PredictorCorrectorMethod.trace(track)`:
`point = track.initial_point(); self.trace_conv_criterion.reset()`, then the
nested while loops, then `return point`.  The fuel arguments bound the two
loops and are artifacts of the embedding. -/
def trace {π τ σtr σco σad : Type} (ops : PCOps π τ σtr σco σad) (fuelO fuelI : ℕ)
    (s : PCState τ σtr σco σad) : Except PyErr π × PCState τ σtr σco σad :=
  match ops.initial_point s.track with
  | .error e => (.error e, s)
  | .ok (point, tr') =>
    traceLoop ops fuelI fuelO point
      { s with track := tr', tracer := ops.tracerReset s.tracer }

/-- Outcome of one body of a while loop, for the spec-worded reading of the
orchestration. -/
inductive LoopOut (π σ : Type) where
  | stop : π → σ → LoopOut π σ
  | next : π → σ → LoopOut π σ
  | fail : PyErr → σ → LoopOut π σ

/-- Modelled from the spec §4.5: iterate a loop body until it stops. -/
def iterateUntil {π σ : Type} (body : π → σ → LoopOut π σ) :
    ℕ → π → σ → Except PyErr π × σ
  | 0, _, s => (.error .outOfFuel, s)
  | fuel + 1, p, s =>
    match body p s with
    | .stop p' s' => (.ok p', s')
    | .fail e s' => (.error e, s')
    | .next p' s' => iterateUntil body fuel p' s'

/-- Modelled from the spec §4.5 step 3c: one pass of "while corrector
criterion not converged for estimate: estimate ← correct(estimate, track)". -/
def specCorrBody {π τ σtr σco σad : Type} (ops : PCOps π τ σtr σco σad)
    (est : π) (s : PCState τ σtr σco σad) : LoopOut π (PCState τ σtr σco σad) :=
  match ops.corrConverged s.corr est s.track with
  | .error e => .fail e s
  | .ok (true, c') => .stop est { s with corr := c' }
  | .ok (false, c') =>
    match ops.correct est s.track with
    | .error e => .fail e { s with corr := c' }
    | .ok (est', tr') => .next est' { s with corr := c', track := tr' }

/-- Modelled from the spec §4.5 step 3: one pass of the outer loop —
3a predict, 3b reset the corrector criterion, 3c correct until converged,
3d advance the point, 3e let the step adjuster observe it. -/
def specOuterBody {π τ σtr σco σad : Type} (ops : PCOps π τ σtr σco σad) (fuelI : ℕ)
    (point : π) (s : PCState τ σtr σco σad) : LoopOut π (PCState τ σtr σco σad) :=
  match ops.tracerConverged s.tracer point s.track with
  | .error e => .fail e s
  | .ok (true, t') => .stop point { s with tracer := t' }
  | .ok (false, t') =>
    match ops.predict s.adj s.track point with
    | .error e => .fail e { s with tracer := t' }
    | .ok (est, tr') =>
      match iterateUntil (specCorrBody ops) fuelI est
          { s with tracer := t', track := tr', corr := ops.corrReset s.corr } with
      | (.error e, s2) => .fail e s2
      | (.ok pt, s2) => .next pt { s2 with adj := ops.adjust s2.adj s2.track pt }

/-- Modelled from the spec §4.5: 1 obtain the initial point (propagating its
failure), 2 reset the tracer criterion, 3 loop until the tracer criterion
converges, 4 return the last accepted point. -/
def traceSpec {π τ σtr σco σad : Type} (ops : PCOps π τ σtr σco σad) (fuelO fuelI : ℕ)
    (s : PCState τ σtr σco σad) : Except PyErr π × PCState τ σtr σco σad :=
  match ops.initial_point s.track with
  | .error e => (.error e, s)
  | .ok (point, tr') =>
    iterateUntil (specOuterBody ops fuelI) fuelO point
      { s with track := tr', tracer := ops.tracerReset s.tracer }

/-! ## the reference convergence criteria (`schmitt_trigger.py`) -/

/-- State of `SimpleTracerConvCriterion`: the constructor arguments `tol`
and `maxiters`, the iteration counter `_iter`, and the accumulated solution
arc `sol_arc`. -/
structure SimpleTracerState where
  tol : ℚ
  maxiters : ℕ
  iter : ℕ
  sol_arc : List (List ℚ)

/-- `SimpleTracerConvCriterion.reset`. -/
def tracerResetS (s : SimpleTracerState) : SimpleTracerState :=
  { s with iter := 0, sol_arc := [] }

/-- `point[-1]`, the λ-component of a point (points in use are nonempty). -/
def lastComp (p : List ℚ) : ℚ := p.getLastD 0

/-- The state mutation of a non-raising tracer `converged` call:
`self._iter += 1; self.sol_arc.append(point)`. -/
def tracerBump (s : SimpleTracerState) (point : List ℚ) : SimpleTracerState :=
  { s with iter := s.iter + 1, sol_arc := s.sol_arc ++ [point] }

/-- `SimpleTracerConvCriterion.converged(point, track)`: raise
`FailedToConverge('tracer failed to converge')` once the counter exceeds
`maxiters`; otherwise increment the counter, append the point to `sol_arc`,
and return whether `point[-1] > track.final_param()`. -/
def tracerConvergedS (s : SimpleTracerState) (point : List ℚ) (final_param : ℚ) :
    Except PyErr (Bool × SimpleTracerState) :=
  if s.maxiters < s.iter then .error (.failedToConverge .tracer)
  else .ok (decide (final_param < lastComp point), tracerBump s point)

/-- State of `SimpleCorrectorConvCriterion`. -/
structure SimpleCorrectorState where
  tol : ℚ
  maxiters : ℕ
  iter : ℕ

/-- `SimpleCorrectorConvCriterion.reset`. -/
def corrResetS (s : SimpleCorrectorState) : SimpleCorrectorState :=
  { s with iter := 0 }

/-- `SimpleCorrectorConvCriterion.converged(point, track)`: raise
`FailedToConverge('corrector failed to converge')` once the counter exceeds
`maxiters`; otherwise increment it and return `abs(u) < tol` for
`u = track.homotopy(point)` (a scalar: the repository's working track has
n = 1). -/
def corrConvergedS (s : SimpleCorrectorState) (u : ℚ) :
    Except PyErr (Bool × SimpleCorrectorState) :=
  if s.maxiters < s.iter then .error (.failedToConverge .corrector)
  else .ok (decide (|u| < s.tol), { s with iter := s.iter + 1 })

/-- The engine assembled with the two reference criteria and pure (total)
track/predictor/corrector/adjuster operations — the configuration of the
`schmitt_trigger.py` driver.  `final_param` and `homotopy` are the track
capabilities the criteria consult. -/
def refOps {τ σad : Type} (final_param : τ → ℚ) (homotopy : τ → List ℚ → ℚ)
    (initF : τ → List ℚ × τ)
    (predictF : σad → τ → List ℚ → List ℚ × τ)
    (correctF : List ℚ → τ → List ℚ × τ)
    (adjustF : σad → τ → List ℚ → σad) :
    PCOps (List ℚ) τ SimpleTracerState SimpleCorrectorState σad where
  initial_point := fun t => .ok (initF t)
  tracerReset := tracerResetS
  tracerConverged := fun s p t => tracerConvergedS s p (final_param t)
  corrReset := corrResetS
  corrConverged := fun s p t => corrConvergedS s (homotopy t p)
  predict := fun a t p => .ok (predictF a t p)
  correct := fun p t => .ok (correctF p t)
  adjust := adjustF

/-- Terminating outcomes of a trace with the reference criteria: a final
point, or a `FailedToConverge` of either kind. -/
def NormalOutcome (r : Except PyErr (List ℚ)) : Prop :=
  (∃ p, r = .ok p) ∨ r = .error (.failedToConverge .tracer)
    ∨ r = .error (.failedToConverge .corrector)

/-- Concrete instance for the loop-count analysis of claim C7: the track is
a bare counter bumped once per `predict` call, the corrector converges
immediately (homotopy ≡ 0, tol = 1), and the tracer never converges (points
stay at `[0, 0]`, final parameter 10), with a tracer budget of
`maxiters = 0`. -/
def cexOps : PCOps (List ℚ) ℕ SimpleTracerState SimpleCorrectorState Unit :=
  refOps (fun _ => 10) (fun _ _ => 0) (fun t => ([0, 0], t))
    (fun _ t p => (p, t + 1)) (fun p t => (p, t)) (fun a _ _ => a)

/-- Initial state for the C7 counterexample (tracer `maxiters = 0`). -/
def cexState : PCState ℕ SimpleTracerState SimpleCorrectorState Unit where
  track := 0
  tracer := { tol := 1 / 1000000, maxiters := 0, iter := 0, sol_arc := [] }
  corr := { tol := 1, maxiters := 5, iter := 0 }
  adj := ()

/-! ## runs of the tracer criterion alone (for claim C10) -/

/-- A sequence of `converged(point, track)` calls on one
`SimpleTracerConvCriterion` instance, collecting the returned booleans; a
raise aborts the run. -/
def runTracerCalls (s : SimpleTracerState) :
    List (List ℚ × ℚ) → Except PyErr (List Bool × SimpleTracerState)
  | [] => .ok ([], s)
  | (p, fpv) :: rest =>
    match tracerConvergedS s p fpv with
    | .error e => .error e
    | .ok (b, s') =>
      match runTracerCalls s' rest with
      | .error e => .error e
      | .ok (bs, s'') => .ok (b :: bs, s'')

/-! ## the step adjuster and the Euler predictor (`stepadj.py`, `EulerNewton.predict`) -/

/-- The `StepAdjuster` contract: a current scalar step size, and an `adjust`
observer that may mutate the adjuster's state. -/
structure StepAdjusterOps (σ τ : Type) where
  cur_step_size : σ → ℚ
  adjust : σ → τ → List ℚ → σ

/-- `ConstantStep`: holds the constructor argument `h`. -/
structure ConstantStep where
  h : ℚ

/-- The `ConstantStep` policy: `cur_step_size` returns the stored `h`, and
`adjust` is a no-op (`pass`). -/
def constantStepOps (τ : Type) : StepAdjusterOps ConstantStep τ where
  cur_step_size := fun s => s.h
  adjust := fun s _ _ => s

/-- A two-field step-adjuster state whose second component is dead weight,
used to separate "same state" from "same current step size". -/
def fstStepOps (τ : Type) : StepAdjusterOps (ℚ × ℚ) τ where
  cur_step_size := fun s => s.1
  adjust := fun s _ _ => s

/-- `EulerNewton.predict(track, point)`:
`point + self.step_adjuster.cur_step_size * track.tangent(point)`, reading
`cur_step_size` from the adjuster state `a` passed to this very call; the
track's tangent may mutate the track, so it returns the new track state too. -/
def predictEuler {σ τ : Type} (A : StepAdjusterOps σ τ)
    (tangent : τ → List ℚ → List ℚ × τ) (a : σ) (t : τ) (p : List ℚ) :
    List ℚ × τ :=
  (p.zipWith (fun x v => x + A.cur_step_size a * v) (tangent t p).1,
    (tangent t p).2)

/-! ## `AutoHomotopyTrack.initial_point` (`autohomotopy.py`) -/

/-- Python values stored in the track's instance attributes. -/
inductive PyVal where
  | noneV : PyVal
  | num : ℚ → PyVal
  | arr : List ℚ → PyVal
  | pairV : ℚ → ℚ → PyVal

/-- The data of an `AutoHomotopyTrack` instance as `__init__` stores it:
`self.init_root = init_root` (note the name — NOT `_init_root`), and the
parameter range; `self._homotopy` is an opaque callable and `self._prev_tan`
a vector, both irrelevant to `initial_point`.  (In fact `__init__` cannot
even complete in the source: `self.param_range = ...` hits the base class's
read-only property, and the module lacks its numpy/scipy/HomotopyTrack
imports; this model charitably assumes a constructed instance.) -/
structure AutoHomotopyTrackObj where
  init_root : Option (List ℚ)
  init_param : ℚ
  final_param : ℚ
  prev_tan : List ℚ

/-- Python attribute lookup on such an instance: exactly the names
`__init__` assigns resolve; any other name — in particular `_init_root` —
is absent (AttributeError at the access site). -/
def AutoHomotopyTrackObj.getattr (t : AutoHomotopyTrackObj) : String → Option PyVal
  | "init_root" => some (match t.init_root with
      | some r => .arr r
      | none => .noneV)
  | "param_range" => some (.pairV t.init_param t.final_param)
  | "_prev_tan" => some (.arr t.prev_tan)
  | _ => none

/-- `AutoHomotopyTrack.initial_point` as written: read `self._init_root`
(which `__init__` never assigns — it assigns `self.init_root`), then the
intended check `if self._init_root is None: raise NotImplementedError`, and
otherwise `np.hstack([self._init_root, self.param_range[0]])`. -/
def AutoHomotopyTrackObj.initial_point (t : AutoHomotopyTrackObj) :
    Except PyErr (List ℚ) :=
  match t.getattr "_init_root" with
  | none => .error .attributeError
  | some .noneV => .error .notImplemented
  | some (.arr r) => .ok (r ++ [t.init_param])
  | some _ => .error .attributeError

/-- A predictor-corrector engine over `AutoHomotopyTrack` whose
`initial_point` is the track's own (failing) one; the remaining operations
are immaterial to the propagation claim. -/
def autoOps : PCOps (List ℚ) AutoHomotopyTrackObj Unit Unit Unit where
  initial_point := fun t =>
    match t.initial_point with
    | .error e => .error e
    | .ok p => .ok (p, t)
  tracerReset := id
  tracerConverged := fun _ _ _ => .ok (true, ())
  corrReset := id
  corrConverged := fun _ _ _ => .ok (true, ())
  predict := fun _ t p => .ok (p, t)
  correct := fun p t => .ok (p, t)
  adjust := fun a _ _ => a

/-! ## the Newton corrector (`EulerNewton.correct`) -/

/-- The pseudo-inverse `np.linalg.pinv(J)`, modelled on the full-row-rank
domain the contract prescribes (J is n×(n+1) of rank n) by its closed form
`Jᵀ (J Jᵀ)⁻¹`, which equals the Moore–Penrose pseudo-inverse there (the four
Penrose equations are proved in `pinv_isMoorePenrose`). -/
noncomputable def pinv {n m : ℕ} (J : Matrix (Fin n) (Fin m) ℚ) :
    Matrix (Fin m) (Fin n) ℚ :=
  Jᵀ * (J * Jᵀ)⁻¹

/-- The four Moore–Penrose equations characterizing the pseudo-inverse. -/
def IsMoorePenrose {n m : ℕ} (A : Matrix (Fin n) (Fin m) ℚ)
    (P : Matrix (Fin m) (Fin n) ℚ) : Prop :=
  A * P * A = A ∧ P * A * P = P ∧ (A * P)ᵀ = A * P ∧ (P * A)ᵀ = P * A

/-- `J.reshape(1, -1)`: a bare 1-D gradient vector as a 1×m row matrix. -/
def reshapeRow {m : ℕ} (v : Fin m → ℚ) : Matrix (Fin 1) (Fin m) ℚ :=
  Matrix.of fun _ j => v j

/-- `EulerNewton.correct` when the track's gradient is already a 2-D n×m
Jacobian (the reshape branch is not taken):
`estimate - np.linalg.pinv(J) @ track.homotopy(estimate)`. -/
noncomputable def correctNewton {n m : ℕ}
    (gradient : (Fin m → ℚ) → Matrix (Fin n) (Fin m) ℚ)
    (homotopy : (Fin m → ℚ) → Fin n → ℚ) (estimate : Fin m → ℚ) : Fin m → ℚ :=
  estimate - (pinv (gradient estimate)).mulVec (homotopy estimate)

/-- `EulerNewton.correct` when `len(J.shape) == 1` — the track returned a
bare 1-D gradient (the n = 1 case): reshape it to a 1×m row and proceed
identically. -/
noncomputable def correctNewtonVec {m : ℕ}
    (gradient : (Fin m → ℚ) → (Fin m → ℚ))
    (homotopy : (Fin m → ℚ) → ℚ) (estimate : Fin m → ℚ) : Fin m → ℚ :=
  correctNewton (fun e => reshapeRow (gradient e)) (fun e _ => homotopy e) estimate

/-! ## helper lemmas on lists -/

theorem getD_of_length_le {α : Type} (d : α) :
    ∀ (l : List α) (i : ℕ), l.length ≤ i → l.getD i d = d
  | [], _, _ => rfl
  | _ :: xs, i + 1, h => getD_of_length_le d xs i (Nat.le_of_succ_le_succ h)

theorem getD_set_self {α : Type} (d a : α) :
    ∀ (l : List α) (i : ℕ), i < l.length → (l.set i a).getD i d = a
  | _ :: _, 0, _ => rfl
  | _ :: xs, i + 1, h => getD_set_self d a xs i (Nat.lt_of_succ_lt_succ h)

theorem getD_set_ne {α : Type} (d a : α) :
    ∀ (l : List α) (i j : ℕ), i ≠ j → (l.set i a).getD j d = l.getD j d
  | [], _, _, _ => by simp
  | _ :: _, 0, 0, h => absurd rfl h
  | _ :: _, 0, _ + 1, _ => rfl
  | _ :: _, _ + 1, 0, _ => rfl
  | _ :: xs, i + 1, j + 1, h =>
    getD_set_ne d a xs i j (fun hij => h (by rw [hij]))

theorem getD_replicate {α : Type} (d a : α) :
    ∀ (n i : ℕ), i < n → (List.replicate n a).getD i d = a
  | _ + 1, 0, _ => rfl
  | n + 1, i + 1, h => getD_replicate d a n i (Nat.lt_of_succ_lt_succ h)

theorem getD_drop {α : Type} (d : α) :
    ∀ (l : List α) (k i : ℕ), (l.drop k).getD i d = l.getD (k + i) d
  | _, 0, _ => by simp
  | [], _ + 1, _ => by simp
  | _ :: xs, k + 1, i => by
    simp only [List.drop_succ_cons, Nat.succ_add, List.getD_cons_succ]
    exact getD_drop d xs k i

theorem dot_nil_right (a : List ℚ) : dot a [] = 0 := by
  simp [dot]

theorem dot_cons (x y : ℚ) (a b : List ℚ) :
    dot (x :: a) (y :: b) = x * y + dot a b := by
  simp [dot]

theorem dot_split :
    ∀ (n : ℕ) (a b : List ℚ),
      dot a b = dot (a.take n) (b.take n) + dot (a.drop n) (b.drop n)
  | 0, a, b => by simp [dot]
  | n + 1, [], b => by simp [dot]
  | n + 1, x :: xs, [] => by simp [dot]
  | n + 1, x :: xs, y :: ys => by
    simp only [List.take_succ_cons, List.drop_succ_cons, dot_cons]
    rw [dot_split n xs ys]; ring

theorem dot_take_zero :
    ∀ (n : ℕ) (a b : List ℚ), (∀ j, j < n → a.getD j 0 = 0) →
      dot (a.take n) (b.take n) = 0
  | 0, _, _, _ => by simp [dot]
  | n + 1, [], b, _ => by simp [dot]
  | n + 1, x :: xs, [], _ => by simp [dot]
  | n + 1, x :: xs, y :: ys, h => by
    have hx : x = 0 := h 0 (Nat.succ_pos n)
    simp only [List.take_succ_cons, dot_cons, hx, zero_mul, zero_add]
    exact dot_take_zero n xs ys (fun j hj => h (j + 1) (Nat.succ_lt_succ hj))

/-! ## lemmas on the elimination primitives -/

theorem rowSub_getD_lt :
    ∀ (r pr : List ℚ) (m : ℚ) (c : ℕ), c < r.length → c < pr.length →
      (rowSub r m pr).getD c 0 = r.getD c 0 - m * pr.getD c 0
  | _ :: _, _ :: _, _, 0, _, _ => rfl
  | _ :: r, _ :: pr, m, c + 1, hr, hpr =>
    rowSub_getD_lt r pr m c (Nat.lt_of_succ_lt_succ hr) (Nat.lt_of_succ_lt_succ hpr)

theorem length_rowSub (r pr : List ℚ) (m : ℚ) :
    (rowSub r m pr).length = min r.length pr.length := by
  simp [rowSub]

theorem rowSub_getD_zero (r pr : List ℚ) (m : ℚ) (c : ℕ)
    (hr : r.getD c 0 = 0) (hpr : pr.getD c 0 = 0) :
    (rowSub r m pr).getD c 0 = 0 := by
  by_cases h : c < r.length ∧ c < pr.length
  · rw [rowSub_getD_lt r pr m c h.1 h.2, hr, hpr]; ring
  · apply getD_of_length_le
    rw [length_rowSub]
    rcases Nat.lt_or_ge c r.length with h1 | h1
    · rcases Nat.lt_or_ge c pr.length with h2 | h2
      · exact absurd ⟨h1, h2⟩ h
      · exact le_trans (min_le_right _ _) h2
    · exact le_trans (min_le_left _ _) h1

theorem length_elimRows (piv : ℚ) (prow : List ℚ) (k : ℕ) :
    ∀ (j : ℕ) (rows : List (List ℚ)),
      (elimRows piv prow k j rows).length = rows.length
  | _, [] => rfl
  | j, _ :: rest => by
    simp [elimRows, length_elimRows piv prow k (j + 1) rest]

theorem elimRows_getD (piv : ℚ) (prow : List ℚ) (k : ℕ) :
    ∀ (j : ℕ) (rows : List (List ℚ)) (i : ℕ), i < rows.length →
      (elimRows piv prow k j rows).getD i []
        = if k < j + i then
            rowSub (rows.getD i []) ((rows.getD i []).getD k 0 / piv) prow
          else rows.getD i []
  | j, row :: rest, 0, _ => by simp [elimRows]
  | j, row :: rest, i + 1, h => by
    have := elimRows_getD piv prow k (j + 1) rest i (Nat.lt_of_succ_lt_succ h)
    simp only [elimRows, List.getD_cons_succ, this]
    have harith : j + 1 + i = j + (i + 1) := by omega
    rw [harith]

theorem length_swapRows (i j : ℕ) (a : List (List ℚ)) :
    (swapRows i j a).length = a.length := by
  simp [swapRows]

theorem swapRows_getD_fst (k p : ℕ) (a : List (List ℚ)) (hk : k < a.length) :
    (swapRows k p a).getD k [] = a.getD p [] := by
  by_cases hkp : p = k
  · subst hkp
    rw [swapRows, getD_set_self]
    simpa using hk
  · rw [swapRows, getD_set_ne _ _ _ _ _ hkp, getD_set_self _ _ _ _ hk]

theorem swapRows_getD_snd (k p : ℕ) (a : List (List ℚ)) (hp : p < a.length) :
    (swapRows k p a).getD p [] = a.getD k [] := by
  rw [swapRows, getD_set_self]
  simpa using hp

theorem swapRows_getD_other (k p i : ℕ) (a : List (List ℚ))
    (hik : i ≠ k) (hip : i ≠ p) :
    (swapRows k p a).getD i [] = a.getD i [] := by
  rw [swapRows, getD_set_ne _ _ _ _ _ (fun h => hip h.symm),
    getD_set_ne _ _ _ _ _ (fun h => hik h.symm)]

theorem argmaxAbs_lt : ∀ (l : List ℚ), l ≠ [] → argmaxAbs l < l.length
  | [], h => absurd rfl h
  | [_], _ => Nat.zero_lt_one
  | x :: y :: xs, _ => by
    rw [argmaxAbs]
    split
    · exact Nat.succ_lt_succ (argmaxAbs_lt (y :: xs) (by simp))
    · simp

theorem argmaxAbs_le :
    ∀ (l : List ℚ) (i : ℕ), |l.getD i 0| ≤ |l.getD (argmaxAbs l) 0|
  | [], i => le_refl _
  | [x], 0 => le_refl _
  | [x], i + 1 => by simp [argmaxAbs]
  | x :: y :: xs, i => by
    rw [argmaxAbs]
    split
    · rename_i hlt
      match i with
      | 0 => exact le_of_lt hlt
      | i + 1 => exact argmaxAbs_le (y :: xs) i
    · rename_i hge
      match i with
      | 0 => exact le_refl _
      | i + 1 => exact le_trans (argmaxAbs_le (y :: xs) i) (le_of_not_lt hge)

/-! ## upper-triangularity of the eliminated factor -/

theorem getD_map_getD (k : ℕ) :
    ∀ (l : List (List ℚ)) (i : ℕ),
      (l.map (fun r => r.getD k 0)).getD i 0 = (l.getD i []).getD k 0
  | [], _ => by simp
  | _ :: _, 0 => rfl
  | _ :: xs, i + 1 => getD_map_getD k xs i

theorem colBelow_getD (a : List (List ℚ)) (k i : ℕ) :
    ((a.drop k).map (fun r => r.getD k 0)).getD i 0
      = (a.getD (k + i) []).getD k 0 := by
  rw [getD_map_getD, getD_drop]

theorem swapRows_triBelow (k p : ℕ) (a : List (List ℚ)) (hkp : k ≤ p)
    (hk : k < a.length) (hp : p < a.length) (h : TriBelow k a) :
    TriBelow k (swapRows k p a) := by
  intro i j hji hjk
  by_cases hik : i = k
  · rw [hik, swapRows_getD_fst k p a hk]
    exact h p j (lt_of_lt_of_le hjk hkp) hjk
  · by_cases hip : i = p
    · rw [hip, swapRows_getD_snd k p a hp]
      exact h k j hjk hjk
    · rw [swapRows_getD_other k p i a hik hip]
      exact h i j hji hjk

theorem length_elimStep (k : ℕ) (a : List (List ℚ)) :
    (elimStep k a).length = a.length := by
  rw [elimStep, length_elimRows, elimSwap, length_swapRows]

theorem rowSub_getD_cancel (r pr : List ℚ) (c : ℕ) (hpv : pr.getD c 0 ≠ 0) :
    (rowSub r (r.getD c 0 / pr.getD c 0) pr).getD c 0 = 0 := by
  rcases Nat.lt_or_ge c pr.length with h2 | h2
  · rcases Nat.lt_or_ge c r.length with h1 | h1
    · rw [rowSub_getD_lt _ _ _ _ h1 h2, div_mul_cancel₀ _ hpv, sub_self]
    · apply getD_of_length_le
      rw [length_rowSub]
      exact le_trans (min_le_left _ _) h1
  · exact absurd (getD_of_length_le 0 pr c h2) hpv

theorem argmax_col_lt (k : ℕ) (a : List (List ℚ)) (hk : k < a.length) :
    k + argmaxAbs ((a.drop k).map (fun r => r.getD k 0)) < a.length := by
  have hlen : ((a.drop k).map (fun r => r.getD k 0)).length = a.length - k := by
    simp
  have hne : (a.drop k).map (fun r => r.getD k 0) ≠ [] := by
    rw [← List.length_pos, hlen]
    omega
  have := argmaxAbs_lt _ hne
  omega

theorem swap_pivot_max_gen (k p : ℕ) (a : List (List ℚ)) (hk : k < a.length)
    (hp : p < a.length)
    (hbound : ∀ j, |(a.getD (k + j) []).getD k 0| ≤ |(a.getD p []).getD k 0|)
    (i : ℕ) (hki : k ≤ i) :
    |((swapRows k p a).getD i []).getD k 0|
      ≤ |((swapRows k p a).getD k []).getD k 0| := by
  by_cases hik : i = k
  · rw [hik]
  · rw [swapRows_getD_fst k p a hk]
    by_cases hip : i = p
    · rw [hip, swapRows_getD_snd k p a hp]
      simpa using hbound 0
    · rw [swapRows_getD_other k p i a hik hip]
      have := hbound (i - k)
      rwa [Nat.add_sub_cancel' hki] at this

theorem elimSwap_pivot_max (k : ℕ) (a : List (List ℚ)) (hk : k < a.length)
    (i : ℕ) (hki : k ≤ i) :
    |((elimSwap k a).getD i []).getD k 0|
      ≤ |((elimSwap k a).getD k []).getD k 0| := by
  rw [elimSwap]
  apply swap_pivot_max_gen k _ a hk (argmax_col_lt k a hk) _ i hki
  intro j
  have h1 := argmaxAbs_le ((a.drop k).map (fun r => r.getD k 0)) j
  rwa [colBelow_getD, colBelow_getD] at h1

theorem elimSwap_triBelow (k : ℕ) (a : List (List ℚ)) (hk : k < a.length)
    (h : TriBelow k a) : TriBelow k (elimSwap k a) := by
  rw [elimSwap]
  exact swapRows_triBelow k _ a (Nat.le_add_right _ _) hk (argmax_col_lt k a hk) h

theorem elimRows_triBelow_gen (k : ℕ) (a1 : List (List ℚ)) (pivRow : List ℚ)
    (hpr : pivRow = a1.getD k [])
    (htri1 : TriBelow k a1)
    (hmax : ∀ i, k ≤ i → |(a1.getD i []).getD k 0| ≤ |pivRow.getD k 0|) :
    TriBelow (k + 1) (elimRows (pivRow.getD k 0) pivRow k 0 a1) := by
  intro i j hji hjk1
  by_cases hilen : a1.length ≤ i
  · have hrow : (elimRows (pivRow.getD k 0) pivRow k 0 a1).getD i [] = [] := by
      apply getD_of_length_le
      rw [length_elimRows]
      exact hilen
    rw [hrow]
    rfl
  · push_neg at hilen
    rw [elimRows_getD _ _ k 0 a1 i hilen, Nat.zero_add]
    by_cases hki : k < i
    · rw [if_pos hki]
      by_cases hjk : j < k
      · refine rowSub_getD_zero _ _ _ _ (htri1 i j hji hjk) ?_
        rw [hpr]
        exact htri1 k j hjk hjk
      · have hjeq : j = k := by omega
        subst hjeq
        by_cases hpv : pivRow.getD j 0 = 0
        · have hx : (a1.getD i []).getD j 0 = 0 := by
            have hb := hmax i (le_of_lt hki)
            rw [hpv] at hb
            simpa using hb
          exact rowSub_getD_zero _ _ _ _ hx hpv
        · exact rowSub_getD_cancel _ _ j hpv
    · rw [if_neg hki]
      push_neg at hki
      exact htri1 i j hji (by omega)

theorem elimStep_triBelow (k : ℕ) (a : List (List ℚ)) (hk : k < a.length)
    (h : TriBelow k a) : TriBelow (k + 1) (elimStep k a) := by
  have hstep : elimStep k a
      = elimRows (((elimSwap k a).getD k []).getD k 0) ((elimSwap k a).getD k []) k 0
          (elimSwap k a) := rfl
  rw [hstep]
  exact elimRows_triBelow_gen k (elimSwap k a) _ rfl (elimSwap_triBelow k a hk h)
    (elimSwap_pivot_max k a hk)

theorem length_elimFrom :
    ∀ (fuel k : ℕ) (a : List (List ℚ)), (elimFrom fuel k a).length = a.length
  | 0, _, _ => rfl
  | fuel + 1, k, a => by
    rw [elimFrom, length_elimFrom fuel (k + 1) (elimStep k a), length_elimStep]

theorem elimFrom_triBelow :
    ∀ (fuel k : ℕ) (a : List (List ℚ)), k + fuel ≤ a.length → TriBelow k a →
      TriBelow (k + fuel) (elimFrom fuel k a)
  | 0, k, a, _, h => by simpa using h
  | fuel + 1, k, a, hle, h => by
    have hk : k < a.length := by omega
    have h1 : TriBelow (k + 1) (elimStep k a) := elimStep_triBelow k a hk h
    have h2 : (k + 1) + fuel ≤ (elimStep k a).length := by
      rw [length_elimStep]; omega
    have := elimFrom_triBelow fuel (k + 1) (elimStep k a) h2 h1
    rw [elimFrom]
    have harith : k + 1 + fuel = k + (fuel + 1) := by omega
    rwa [harith] at this

theorem luU_triangular (a : List (List ℚ)) :
    ∀ i j, j < i → ((luU a).getD i []).getD j 0 = 0 := by
  intro i j hji
  by_cases hj : j < a.length
  · have h0 : TriBelow 0 a := fun _ _ _ h => absurd h (Nat.not_lt_zero _)
    have := elimFrom_triBelow a.length 0 a (by omega) h0
    rw [Nat.zero_add] at this
    exact this i j hji hj
  · push_neg at hj
    rw [getD_of_length_le _ _ i (by rw [luU, length_elimFrom]; omega)]
    simp

/-! ## back-substitution and normalization lemmas -/

theorem backLoop_length (u : List (List ℚ)) :
    ∀ (n : ℕ) (v : List ℚ), (backLoop u n v).length = v.length
  | 0, _ => rfl
  | n + 1, v => by
    rw [backLoop, backLoop_length u n, List.length_set]

theorem backLoop_getD_ge (u : List (List ℚ)) :
    ∀ (n : ℕ) (v : List ℚ) (j : ℕ), n ≤ j →
      (backLoop u n v).getD j 0 = v.getD j 0
  | 0, _, _, _ => rfl
  | n + 1, v, j, h => by
    rw [backLoop, backLoop_getD_ge u n _ j (by omega),
      getD_set_ne _ _ _ _ _ (by omega)]

theorem backLoop_eq_spec (u : List (List ℚ)) :
    ∀ (n : ℕ) (v : List ℚ), (∀ j, j < n → v.getD j 0 = 0) →
      backLoop u n v = backLoopSpec u n v
  | 0, _, _ => rfl
  | n + 1, v, h => by
    rw [backLoop, backLoopSpec]
    have hdot : dot v (u.getD n []) =
        dot (v.drop (n + 1)) ((u.getD n []).drop (n + 1)) := by
      rw [dot_split (n + 1) v (u.getD n []),
        dot_take_zero (n + 1) v (u.getD n []) h, zero_add]
    rw [hdot]
    exact backLoop_eq_spec u n _ (fun j hj =>
      (getD_set_ne _ _ _ _ _ (by omega)).trans (h j (by omega)))

theorem kerPre_length (mat : List (List ℚ)) :
    (kerPre mat).length = (mat.getD 0 []).length := by
  rw [kerPre, backLoop_length, List.length_set, List.length_replicate]

theorem kerPre_last (mat : List (List ℚ))
    (h : mat.length < (mat.getD 0 []).length) :
    (kerPre mat).getD ((mat.getD 0 []).length - 1) 0 = 1 := by
  rw [kerPre, backLoop_getD_ge _ _ _ _ (by omega), getD_set_self]
  rw [List.length_replicate]
  omega

theorem kerPre_eq_spec (mat : List (List ℚ))
    (h : mat.length < (mat.getD 0 []).length) :
    kerPre mat = kerPreSpec mat := by
  rw [kerPre, kerPreSpec]
  apply backLoop_eq_spec
  intro j hj
  rw [getD_set_ne _ _ _ _ _ (by omega), getD_replicate]
  omega

theorem sum_map_sq_nonneg (w : List ℝ) : 0 ≤ (w.map (fun x => x ^ 2)).sum := by
  apply List.sum_nonneg
  intro x hx
  rcases List.mem_map.mp hx with ⟨y, _, hy⟩
  rw [← hy]
  exact sq_nonneg y

theorem sq_getD_le_sum :
    ∀ (w : List ℝ) (i : ℕ), i < w.length →
      (w.getD i 0) ^ 2 ≤ (w.map (fun x => x ^ 2)).sum
  | x :: xs, 0, _ => by
    simp only [List.getD_cons_zero, List.map_cons, List.sum_cons]
    have := sum_map_sq_nonneg xs
    linarith
  | x :: xs, i + 1, h => by
    simp only [List.getD_cons_succ, List.map_cons, List.sum_cons]
    have h1 := sq_getD_le_sum xs i (Nat.lt_of_succ_lt_succ h)
    have h2 := sq_nonneg x
    linarith

theorem getD_coeVec :
    ∀ (v : List ℚ) (i : ℕ), (coeVec v).getD i 0 = ((v.getD i 0 : ℚ) : ℝ)
  | [], i => by simp [coeVec]
  | _ :: _, 0 => rfl
  | _ :: xs, i + 1 => getD_coeVec xs i

theorem length_coeVec (v : List ℚ) : (coeVec v).length = v.length := by
  rw [coeVec, List.length_map]

theorem norm2R_normalizeVec (v : List ℚ) (i : ℕ) (hi : i < v.length)
    (h1 : v.getD i 0 = 1) : norm2R (normalizeVec v) = 1 := by
  have hw : (coeVec v).getD i 0 = 1 := by
    rw [getD_coeVec, h1]
    norm_num
  have hS1 : (1 : ℝ) ≤ (((coeVec v).map (fun x => x ^ 2)).sum) := by
    have := sq_getD_le_sum (coeVec v) i (by rw [length_coeVec]; exact hi)
    rw [hw] at this
    simpa using this
  have hS0 : (0 : ℝ) < (((coeVec v).map (fun x => x ^ 2)).sum) := by
    linarith
  rw [normalizeVec, norm2R, List.map_map]
  have hmap : ((coeVec v).map ((fun x => x ^ 2) ∘ fun x => x / norm2R (coeVec v)))
      = (coeVec v).map (fun x => x ^ 2 * ((norm2R (coeVec v)) ^ 2)⁻¹) := by
    apply List.map_congr_left
    intro x _
    simp [Function.comp, div_eq_mul_inv, mul_pow, inv_pow]
  rw [hmap, List.sum_map_mul_right]
  rw [norm2R, Real.sq_sqrt (by linarith)]
  rw [mul_inv_cancel₀ (by linarith)]
  exact Real.sqrt_one

theorem ker_unit_basis_length (mat : List (List ℚ)) :
    (ker_unit_basis mat).length = (mat.getD 0 []).length := by
  rw [ker_unit_basis, normalizeVec, List.length_map, length_coeVec, kerPre_length]

/-! ## the claims about the kernel extractor -/

/-- Claim C3: for an n×(n+1) Jacobian, `__ker_unit_basis` LU-eliminates to an
upper-triangular factor `U`, pins the last entry of the candidate vector to 1,
back-substitutes `vᵢ = −(v · Uᵢ)/Uᵢᵢ` for `i = n−1` down to `0` (where, as the
spec words it, only the already-determined trailing entries of `v` contribute
to the dot product — the code's full-vector dot agrees because the leading
entries are still zero), and normalizes to unit length.  Stated as: the code
agrees with the spec-worded trailing-dot algorithm, the result has unit
Euclidean norm, and the eliminated factor is upper-triangular. -/
theorem claim_C3_ker_unit_basis_algorithm (mat : List (List ℚ))
    (hshape : mat.length < (mat.getD 0 []).length) :
    ker_unit_basis mat = ker_unit_basisSpec mat
      ∧ norm2R (ker_unit_basis mat) = 1
      ∧ ∀ i j, j < i → ((luU mat).getD i []).getD j 0 = 0 := by
  refine ⟨?_, ?_, luU_triangular mat⟩
  · rw [ker_unit_basis, ker_unit_basisSpec, kerPre_eq_spec mat hshape]
  · rw [ker_unit_basis]
    exact norm2R_normalizeVec (kerPre mat) ((mat.getD 0 []).length - 1)
      (by rw [kerPre_length]; omega) (kerPre_last mat hshape)

/-- Witness for C3 at the 1×2 Jacobian [[1, 0]]. -/
theorem claim_C3_witness :
    ker_unit_basis [[1, 0]] = ker_unit_basisSpec [[1, 0]]
      ∧ norm2R (ker_unit_basis [[1, 0]]) = 1
      ∧ ∀ i j, j < i → ((luU [[1, 0]]).getD i []).getD j 0 = 0 :=
  claim_C3_ker_unit_basis_algorithm [[1, 0]] (by decide)

/-- Claim C2 counterexample: the 1×2 Jacobian [[0, 0]] produces a zero pivot
during elimination, yet `__ker_unit_basis` does not fail: it returns a vector
(of the expected length 2).  The source contains no `SingularJacobian` error
and no pivot check at all — the float division by the zero pivot produces
junk (numpy: nan) and execution continues to the return. -/
theorem claim_C2_counterexample :
    hasZeroPivot [[0, 0]] = true ∧ (ker_unit_basis [[0, 0]]).length = 2 := by
  constructor
  · have hU : luU [[0, 0]] = [[0, 0]] := by
      norm_num [luU, elimFrom, elimStep, elimSwap, swapRows, elimRows, rowSub,
        argmaxAbs]
    norm_num [hasZeroPivot, hU, List.range_succ]
  · rw [ker_unit_basis_length]
    rfl

/-- Claim C2 (amended): on a Jacobian whose elimination produces a zero
pivot, the kernel extractor raises no error: back-substitution proceeds
through the division by zero and a vector of full length (the column count
of the Jacobian) is returned.  The rank-n precondition is only an `XXX`
comment; no `SingularJacobian` detection exists in the code. -/
theorem claim_C2_amended (mat : List (List ℚ))
    (_hz : hasZeroPivot mat = true) :
    (ker_unit_basis mat).length = (mat.getD 0 []).length :=
  ker_unit_basis_length mat

/-- Witness for the amended C2 at the rank-deficient 2×3 Jacobian
[[1,2,3],[2,4,6]], whose elimination yields the zero pivot U₁₁ = 0. -/
theorem claim_C2_amended_witness :
    hasZeroPivot [[1, 2, 3], [2, 4, 6]] = true
      ∧ (ker_unit_basis [[1, 2, 3], [2, 4, 6]]).length
          = ([[1, 2, 3], [2, 4, 6]].getD 0 []).length := by
  have hz : hasZeroPivot [[1, 2, 3], [2, 4, 6]] = true := by
    have hU : luU [[1, 2, 3], [2, 4, 6]] = [[2, 4, 6], [0, 0, 0]] := by
      norm_num [luU, elimFrom, elimStep, elimSwap, swapRows, elimRows, rowSub,
        argmaxAbs]
    norm_num [hasZeroPivot, hU, List.range_succ]
  exact ⟨hz, claim_C2_amended [[1, 2, 3], [2, 4, 6]] hz⟩

/-! ## the claims about the Schmitt-trigger tangent -/

theorem sign_mul_self_nonneg (x : ℝ) : 0 ≤ Real.sign x * x := by
  rcases lt_trichotomy x 0 with h | h | h
  · rw [Real.sign_of_neg h]
    nlinarith
  · rw [h, mul_zero]
  · rw [Real.sign_of_pos h]
    nlinarith

theorem dot2_sign_scale (t raw : ℝ × ℝ) :
    dot2 t (Real.sign (dot2 t raw) * raw.1, Real.sign (dot2 t raw) * raw.2)
      = Real.sign (dot2 t raw) * dot2 t raw := by
  simp only [dot2]
  ring

/-- Claim C6: two tangents produced by consecutive calls to `tangent` on the
same track instance have non-negative dot product.  The first call stores the
tangent it returns as the new previous tangent; the second call scales its
raw tangent by the sign of the dot product against that stored vector, so
the product of the two tangents equals `sign(d) * d ≥ 0`.  Stated for the
repository's working track (`SchmittTriggerHomotopyTrack`); the autodiff
track's `tangent` applies the same sign rule but never returns (its call to
the name-mangled `__ker_unit_basis` raises `NameError`), so the claim is
vacuous for it. -/
theorem claim_C6_orientation_continuity (k : ℝ) (prev p₁ p₂ : ℝ × ℝ) :
    0 ≤ dot2 (schmittTangent k prev p₁).1
        (schmittTangent k (schmittTangent k prev p₁).2 p₂).1 := by
  have hstate : (schmittTangent k prev p₁).2 = (schmittTangent k prev p₁).1 := rfl
  rw [hstate]
  show 0 ≤ dot2 (schmittTangent k prev p₁).1
      (Real.sign (dot2 (schmittTangent k prev p₁).1 (schmittRawTangent k p₂))
          * (schmittRawTangent k p₂).1,
        Real.sign (dot2 (schmittTangent k prev p₁).1 (schmittRawTangent k p₂))
          * (schmittRawTangent k p₂).2)
  rw [dot2_sign_scale]
  exact sign_mul_self_nonneg _

/-- Claim C5 counterexample: at `k = 2`, previous tangent `(0, 1)` (the
constructor's initial state) and point `(0, 0)`, the Jacobian is `(0, -2)`
(nonzero, hence full rank 1), yet `tangent` returns the zero vector — its
norm is 0, not 1 — because the orientation dot product is 0 and
`np.sign(0) = 0`. -/
theorem claim_C5_counterexample :
    schmittGrad 2 (0, 0) ≠ (0, 0)
      ∧ (schmittTangent 2 (0, 1) (0, 0)).1 = (0, 0)
      ∧ norm2 (schmittTangent 2 (0, 1) (0, 0)).1 = 0 := by
  have harg : (2 : ℝ) * ((0 : ℝ) / 2 - 0) = 0 := by norm_num
  have hgrad : schmittGrad 2 (0, 0) = (0, -2) := by
    simp only [schmittGrad, harg, Real.tanh_zero]
    norm_num
  have hnorm : norm2 (0, -2) = 2 := by
    simp only [norm2]
    rw [show ((0 : ℝ) ^ 2 + (-2) ^ 2) = 2 ^ 2 by norm_num]
    exact Real.sqrt_sq (by norm_num)
  have hraw : schmittRawTangent 2 (0, 0) = (1, 0) := by
    simp only [schmittRawTangent, hgrad, hnorm]
    norm_num
  have hdot : dot2 (0, 1) (1, 0) = 0 := by
    simp [dot2]
  have htan : (schmittTangent 2 (0, 1) (0, 0)).1 = (0, 0) := by
    simp only [schmittTangent, hraw, hdot, Real.sign_zero]
    norm_num
  refine ⟨?_, htan, ?_⟩
  · rw [hgrad]
    intro hcontra
    have := congrArg Prod.snd hcontra
    norm_num at this
  · rw [htan]
    simp [norm2]

/-- Claim C5 (amended): at every point where the track computes a tangent
with a full-rank (nonzero) Jacobian AND a nonzero orientation dot product
between the remembered previous tangent and the raw tangent, the returned
tangent is a unit vector lying in the kernel of the Jacobian.  (When that
dot product is zero, `np.sign(0) = 0` zeroes the returned tangent — the
counterexample.) -/
theorem claim_C5_amended (k : ℝ) (prev p : ℝ × ℝ)
    (hrank : schmittGrad k p ≠ (0, 0))
    (hdot : dot2 prev (schmittRawTangent k p) ≠ 0) :
    norm2 (schmittTangent k prev p).1 = 1
      ∧ dot2 (schmittGrad k p) (schmittTangent k prev p).1 = 0 := by
  have hsq : (schmittGrad k p).1 ^ 2 + (schmittGrad k p).2 ^ 2 > 0 := by
    by_contra hle
    push_neg at hle
    have h1 : (schmittGrad k p).1 = 0 := by nlinarith [sq_nonneg (schmittGrad k p).1, sq_nonneg (schmittGrad k p).2]
    have h2 : (schmittGrad k p).2 = 0 := by nlinarith [sq_nonneg (schmittGrad k p).1, sq_nonneg (schmittGrad k p).2]
    exact hrank (Prod.ext h1 h2)
  have hn : norm2 (schmittGrad k p) > 0 := Real.sqrt_pos.mpr hsq
  have hn2 : norm2 (schmittGrad k p) ^ 2
      = (schmittGrad k p).1 ^ 2 + (schmittGrad k p).2 ^ 2 :=
    Real.sq_sqrt (le_of_lt hsq)
  have hrawnorm : (schmittRawTangent k p).1 ^ 2 + (schmittRawTangent k p).2 ^ 2 = 1 := by
    simp only [schmittRawTangent]
    field_simp
    linarith [hn2]
  have hsign : Real.sign (dot2 prev (schmittRawTangent k p)) = -1
      ∨ Real.sign (dot2 prev (schmittRawTangent k p)) = 1 :=
    Real.sign_apply_eq_of_ne_zero _ hdot
  have hs2 : Real.sign (dot2 prev (schmittRawTangent k p)) ^ 2 = 1 := by
    rcases hsign with h | h <;> rw [h] <;> norm_num
  constructor
  · show norm2 (Real.sign (dot2 prev (schmittRawTangent k p)) * (schmittRawTangent k p).1,
        Real.sign (dot2 prev (schmittRawTangent k p)) * (schmittRawTangent k p).2) = 1
    simp only [norm2]
    rw [show (Real.sign (dot2 prev (schmittRawTangent k p)) * (schmittRawTangent k p).1) ^ 2
          + (Real.sign (dot2 prev (schmittRawTangent k p)) * (schmittRawTangent k p).2) ^ 2
        = Real.sign (dot2 prev (schmittRawTangent k p)) ^ 2
          * ((schmittRawTangent k p).1 ^ 2 + (schmittRawTangent k p).2 ^ 2) by ring]
    rw [hs2, hrawnorm]
    norm_num
  · show dot2 (schmittGrad k p)
        (Real.sign (dot2 prev (schmittRawTangent k p)) * (schmittRawTangent k p).1,
          Real.sign (dot2 prev (schmittRawTangent k p)) * (schmittRawTangent k p).2) = 0
    simp only [dot2, schmittRawTangent]
    ring

/-- Witness for the amended C5: `k = 0`, previous tangent `(0, 1)`, point
`(1, 2)`; there the Jacobian is `(-1, 0)` and the orientation dot product is
`-1 ≠ 0`, and the returned tangent is unit and in the kernel. -/
theorem claim_C5_amended_witness :
    norm2 (schmittTangent 0 (0, 1) (1, 2)).1 = 1
      ∧ dot2 (schmittGrad 0 (1, 2)) (schmittTangent 0 (0, 1) (1, 2)).1 = 0 := by
  have harg : (0 : ℝ) * ((1 : ℝ) / 2 - 2) = 0 := by norm_num
  have hgrad : schmittGrad 0 (1, 2) = (-1, 0) := by
    simp only [schmittGrad, harg, Real.tanh_zero]
    norm_num
  have hnorm : norm2 (-1, 0) = 1 := by
    simp only [norm2]
    norm_num
  have hraw : schmittRawTangent 0 (1, 2) = (0, -1) := by
    simp only [schmittRawTangent, hgrad, hnorm]
    norm_num
  refine claim_C5_amended 0 (0, 1) (1, 2) ?_ ?_
  · rw [hgrad]
    intro hcontra
    have := congrArg Prod.fst hcontra
    norm_num at this
  · rw [hraw]
    simp [dot2]

/-! ## claim C1: the orchestration of `trace` -/

theorem corrLoop_eq_iterate {π τ σtr σco σad : Type} (ops : PCOps π τ σtr σco σad) :
    ∀ (fuel : ℕ) (est : π) (s : PCState τ σtr σco σad),
      corrLoop ops fuel est s = iterateUntil (specCorrBody ops) fuel est s
  | 0, _, _ => rfl
  | fuel + 1, est, s => by
    cases hc : ops.corrConverged s.corr est s.track with
    | error e => simp [corrLoop, iterateUntil, specCorrBody, hc]
    | ok bc =>
      obtain ⟨b, c'⟩ := bc
      cases b with
      | true => simp [corrLoop, iterateUntil, specCorrBody, hc]
      | false =>
        cases hco : ops.correct est s.track with
        | error e => simp [corrLoop, iterateUntil, specCorrBody, hc, hco]
        | ok ptr =>
          obtain ⟨est', tr'⟩ := ptr
          simp only [corrLoop, iterateUntil, specCorrBody, hc, hco]
          exact corrLoop_eq_iterate ops fuel est' _

theorem traceLoop_eq_iterate {π τ σtr σco σad : Type} (ops : PCOps π τ σtr σco σad)
    (fuelI : ℕ) :
    ∀ (fuelO : ℕ) (point : π) (s : PCState τ σtr σco σad),
      traceLoop ops fuelI fuelO point s
        = iterateUntil (specOuterBody ops fuelI) fuelO point s
  | 0, _, _ => rfl
  | fuelO + 1, point, s => by
    cases ht : ops.tracerConverged s.tracer point s.track with
    | error e => simp [traceLoop, iterateUntil, specOuterBody, ht]
    | ok bt =>
      obtain ⟨b, t'⟩ := bt
      cases b with
      | true => simp [traceLoop, iterateUntil, specOuterBody, ht]
      | false =>
        cases hp : ops.predict s.adj s.track point with
        | error e => simp [traceLoop, iterateUntil, specOuterBody, ht, hp]
        | ok etr =>
          obtain ⟨est, tr'⟩ := etr
          simp only [traceLoop, iterateUntil, specOuterBody, ht, hp]
          rw [← corrLoop_eq_iterate]
          cases hcl : corrLoop ops fuelI est
              { s with tracer := t', track := tr', corr := ops.corrReset s.corr } with
          | mk r s2 =>
            cases r with
            | error e => rfl
            | ok pt => exact traceLoop_eq_iterate ops fuelI fuelO pt _

/-- Claim C1: `trace(track)` follows exactly the specified orchestration —
obtain the initial point (propagating failure), reset the tracer criterion,
and while the tracer criterion is not converged: predict, reset the
corrector criterion, correct until the corrector criterion converges,
advance the point, let the step adjuster observe it; finally return the last
accepted point.  The code's nested-loop embedding `trace` is extensionally
equal to `traceSpec`, the state machine written from the spec's numbered
steps, for every choice of components, fuel, and start state. -/
theorem claim_C1_trace_orchestration {π τ σtr σco σad : Type}
    (ops : PCOps π τ σtr σco σad) (fuelO fuelI : ℕ)
    (s : PCState τ σtr σco σad) :
    trace ops fuelO fuelI s = traceSpec ops fuelO fuelI s := by
  rw [trace, traceSpec]
  cases hi : ops.initial_point s.track with
  | error e => rfl
  | ok ptr =>
    obtain ⟨point, tr'⟩ := ptr
    exact traceLoop_eq_iterate ops fuelI fuelO point _

/-! ## claim C7: loop termination bounds -/

theorem corrLoop_ref_spec {τ σad : Type}
    (ops : PCOps (List ℚ) τ SimpleTracerState SimpleCorrectorState σad)
    (hm : τ → List ℚ → ℚ)
    (hcc : ∀ s p t, ops.corrConverged s p t = corrConvergedS s (hm t p))
    (hco : ∀ p t, ∃ out, ops.correct p t = .ok out) :
    ∀ (fI : ℕ) (est : List ℚ)
      (s : PCState τ SimpleTracerState SimpleCorrectorState σad),
      1 ≤ fI → s.corr.maxiters + 2 ≤ fI + s.corr.iter →
      ((∃ p, (corrLoop ops fI est s).1 = .ok p)
          ∨ (corrLoop ops fI est s).1 = .error (.failedToConverge .corrector))
        ∧ (corrLoop ops fI est s).2.tracer = s.tracer
        ∧ (corrLoop ops fI est s).2.adj = s.adj
        ∧ (corrLoop ops fI est s).2.corr.maxiters = s.corr.maxiters
  | 0, _, _, h1, _ => absurd h1 (by omega)
  | fI + 1, est, s, _, h2 => by
    simp only [corrLoop, hcc, corrConvergedS]
    by_cases hit : s.corr.maxiters < s.corr.iter
    · rw [if_pos hit]
      exact ⟨Or.inr rfl, rfl, rfl, rfl⟩
    · rw [if_neg hit]
      push_neg at hit
      cases hb : decide (|hm s.track est| < s.corr.tol) with
      | true => exact ⟨Or.inl ⟨est, rfl⟩, rfl, rfl, rfl⟩
      | false =>
        obtain ⟨⟨est', tr'⟩, hcor⟩ := hco est s.track
        rw [hcor]
        have h1' : 1 ≤ fI := by omega
        have h2' : s.corr.maxiters + 2 ≤ fI + (s.corr.iter + 1) := by omega
        exact corrLoop_ref_spec ops hm hcc hco fI est' _ h1' h2'

theorem tracerConvergedS_raise (s : SimpleTracerState) (point : List ℚ) (f : ℚ)
    (h : s.maxiters < s.iter) :
    tracerConvergedS s point f = .error (.failedToConverge .tracer) := by
  rw [tracerConvergedS, if_pos h]

theorem tracerConvergedS_ok (s : SimpleTracerState) (point : List ℚ) (f : ℚ)
    (h : ¬s.maxiters < s.iter) :
    tracerConvergedS s point f
      = .ok (decide (f < lastComp point), tracerBump s point) := by
  rw [tracerConvergedS, if_neg h]

theorem traceLoop_step_raise {π τ σtr σco σad : Type}
    (ops : PCOps π τ σtr σco σad) (fI fO : ℕ) (point : π)
    (s : PCState τ σtr σco σad) (e : PyErr)
    (ht : ops.tracerConverged s.tracer point s.track = .error e) :
    traceLoop ops fI (fO + 1) point s = (.error e, s) := by
  simp [traceLoop, ht]

theorem traceLoop_step_done {π τ σtr σco σad : Type}
    (ops : PCOps π τ σtr σco σad) (fI fO : ℕ) (point : π)
    (s : PCState τ σtr σco σad) (t' : σtr)
    (ht : ops.tracerConverged s.tracer point s.track = .ok (true, t')) :
    traceLoop ops fI (fO + 1) point s = (.ok point, { s with tracer := t' }) := by
  simp [traceLoop, ht]

theorem traceLoop_step_corr_fail {π τ σtr σco σad : Type}
    (ops : PCOps π τ σtr σco σad) (fI fO : ℕ) (point : π)
    (s : PCState τ σtr σco σad) (t' : σtr) (est : π) (tr' : τ) (e : PyErr)
    (s2 : PCState τ σtr σco σad)
    (ht : ops.tracerConverged s.tracer point s.track = .ok (false, t'))
    (hp : ops.predict s.adj s.track point = .ok (est, tr'))
    (hc : corrLoop ops fI est
        { s with tracer := t', track := tr', corr := ops.corrReset s.corr }
      = (.error e, s2)) :
    traceLoop ops fI (fO + 1) point s = (.error e, s2) := by
  simp [traceLoop, ht, hp, hc]

theorem traceLoop_step_advance {π τ σtr σco σad : Type}
    (ops : PCOps π τ σtr σco σad) (fI fO : ℕ) (point : π)
    (s : PCState τ σtr σco σad) (t' : σtr) (est : π) (tr' : τ) (pt : π)
    (s2 : PCState τ σtr σco σad)
    (ht : ops.tracerConverged s.tracer point s.track = .ok (false, t'))
    (hp : ops.predict s.adj s.track point = .ok (est, tr'))
    (hc : corrLoop ops fI est
        { s with tracer := t', track := tr', corr := ops.corrReset s.corr }
      = (.ok pt, s2)) :
    traceLoop ops fI (fO + 1) point s
      = traceLoop ops fI fO pt { s2 with adj := ops.adjust s2.adj s2.track pt } := by
  simp [traceLoop, ht, hp, hc]

theorem traceLoop_ref_spec {τ σad : Type}
    (ops : PCOps (List ℚ) τ SimpleTracerState SimpleCorrectorState σad)
    (fp : τ → ℚ) (hm : τ → List ℚ → ℚ)
    (htc : ∀ s p t, ops.tracerConverged s p t = tracerConvergedS s p (fp t))
    (hcc : ∀ s p t, ops.corrConverged s p t = corrConvergedS s (hm t p))
    (hco : ∀ p t, ∃ out, ops.correct p t = .ok out)
    (hpr : ∀ a t p, ∃ out, ops.predict a t p = .ok out)
    (hcr : ∀ c, ops.corrReset c = corrResetS c) (fI : ℕ) :
    ∀ (fO : ℕ) (point : List ℚ)
      (s : PCState τ SimpleTracerState SimpleCorrectorState σad),
      1 ≤ fO → s.tracer.maxiters + 2 ≤ fO + s.tracer.iter →
      s.tracer.iter ≤ s.tracer.maxiters + 1 →
      s.corr.maxiters + 2 ≤ fI →
      NormalOutcome (traceLoop ops fI fO point s).1
        ∧ (traceLoop ops fI fO point s).2.tracer.iter ≤ s.tracer.maxiters + 1
  | 0, _, _, h1, _, _, _ => absurd h1 (by omega)
  | fO + 1, point, s, _, h2, h3, hfI => by
    by_cases hit : s.tracer.maxiters < s.tracer.iter
    · rw [traceLoop_step_raise ops fI fO point s _
        ((htc s.tracer point s.track).trans (tracerConvergedS_raise _ _ _ hit))]
      exact ⟨Or.inr (Or.inl rfl), h3⟩
    · push_neg at hit
      have htok := (htc s.tracer point s.track).trans
        (tracerConvergedS_ok s.tracer point (fp s.track) (by omega))
      cases hb : decide (fp s.track < lastComp point) with
      | true =>
        rw [hb] at htok
        rw [traceLoop_step_done ops fI fO point s _ htok]
        exact ⟨Or.inl ⟨point, rfl⟩, by simp [tracerBump]; omega⟩
      | false =>
        rw [hb] at htok
        obtain ⟨⟨est, tr'⟩, hprd⟩ := hpr s.adj s.track point
        have hrcorr := corrLoop_ref_spec ops hm hcc hco fI est
          { s with
            track := tr'
            tracer := tracerBump s.tracer point
            corr := ops.corrReset s.corr }
          (by omega) (by simp [hcr, corrResetS]; omega)
        obtain ⟨houtc, htrpres, _, hmaxpres⟩ := hrcorr
        cases hcl : corrLoop ops fI est
            { s with
              track := tr'
              tracer := tracerBump s.tracer point
              corr := ops.corrReset s.corr } with
        | mk r s2 =>
          rw [hcl] at houtc htrpres hmaxpres
          simp only at houtc htrpres hmaxpres
          cases r with
          | error e =>
            rcases houtc with ⟨p, hp⟩ | herr
            · exact absurd hp (by simp)
            · have herr' : e = .failedToConverge .corrector := Except.error.inj herr
              rw [traceLoop_step_corr_fail ops fI fO point s _ est tr' e s2 htok hprd hcl]
              refine ⟨herr' ▸ Or.inr (Or.inr rfl), ?_⟩
              rw [htrpres]
              simp only [tracerBump]
              omega
          | ok pt =>
            rw [traceLoop_step_advance ops fI fO point s _ est tr' pt s2 htok hprd hcl]
            have hres := traceLoop_ref_spec ops fp hm htc hcc hco hpr hcr fI fO pt
              { s2 with adj := ops.adjust s2.adj s2.track pt }
              (by omega)
              (by simp only [htrpres, tracerBump]; omega)
              (by simp only [htrpres, tracerBump]; omega)
              (by simp only [hmaxpres, hcr, corrResetS]; exact hfI)
            obtain ⟨hout, hbound⟩ := hres
            refine ⟨hout, ?_⟩
            rw [show ({ s2 with adj := ops.adjust s2.adj s2.track pt }
                : PCState τ SimpleTracerState SimpleCorrectorState σad).tracer.maxiters
              = s.tracer.maxiters by simp only [htrpres, tracerBump]] at hbound
            exact hbound

/-- Claim C7 (amended): with the reference criteria — tracer budget
`maxiters = K`, corrector budget `maxiters = Kc` — and total component
operations, `trace` terminates within K+1 outer iterations: with outer fuel
K+2 (one unit per tracer-criterion check) the embedding never exhausts fuel,
the tracer's final iteration counter is at most K+1, and the run ends either
normally by tracer convergence or with `FailedToConverge` — TracerDivergence
when the tracer budget is exhausted, or CorrectorDivergence when an inner
correction loop exhausts its own budget.  (The original claim's bound K is
off by one — the code allows K+1 outer iterations — and its outcome list
omits the CorrectorDivergence ending.) -/
theorem claim_C7_amended {τ σad : Type} (fp : τ → ℚ) (hm : τ → List ℚ → ℚ)
    (initF : τ → List ℚ × τ) (predictF : σad → τ → List ℚ → List ℚ × τ)
    (correctF : List ℚ → τ → List ℚ × τ) (adjustF : σad → τ → List ℚ → σad)
    (s0 : PCState τ SimpleTracerState SimpleCorrectorState σad) :
    NormalOutcome
        (trace (refOps fp hm initF predictF correctF adjustF)
          (s0.tracer.maxiters + 2) (s0.corr.maxiters + 2) s0).1
      ∧ (trace (refOps fp hm initF predictF correctF adjustF)
          (s0.tracer.maxiters + 2) (s0.corr.maxiters + 2) s0).2.tracer.iter
        ≤ s0.tracer.maxiters + 1 := by
  rw [trace]
  simp only [refOps]
  have h := traceLoop_ref_spec (refOps fp hm initF predictF correctF adjustF)
    fp hm (fun _ _ _ => rfl) (fun _ _ _ => rfl) (fun p t => ⟨correctF p t, rfl⟩)
    (fun a t p => ⟨predictF a t p, rfl⟩) (fun _ => rfl) (s0.corr.maxiters + 2)
    (s0.tracer.maxiters + 2) (initF s0.track).1
    { s0 with track := (initF s0.track).2, tracer := tracerResetS s0.tracer }
    (by omega) (by simp [tracerResetS]) (by simp [tracerResetS]) (by simp)
  simpa [tracerResetS] using h

/-- Claim C7 counterexample: a track whose tracer criterion is configured
with `maxiters = K = 0` on which `trace` nevertheless performs one full
outer iteration (the predict-call counter in the track state reaches 1, and
the tracer's counter and arc reach length 1) before ending with
TracerDivergence — contradicting "terminates within K outer iterations". -/
theorem claim_C7_counterexample :
    cexState.tracer.maxiters = 0
      ∧ (trace cexOps 2 7 cexState).1 = .error (.failedToConverge .tracer)
      ∧ (trace cexOps 2 7 cexState).2.track = 1
      ∧ (trace cexOps 2 7 cexState).2.tracer.iter = 1 := by
  refine ⟨rfl, ?_, ?_, ?_⟩ <;> rfl

/-! ## claim C4: the Newton corrector and the pseudo-inverse -/

theorem pinv_isMoorePenrose {n m : ℕ} (J : Matrix (Fin n) (Fin m) ℚ)
    (h : IsUnit (J * Jᵀ).det) : IsMoorePenrose J (pinv J) := by
  have hAP : J * pinv J = 1 := by
    rw [pinv, ← Matrix.mul_assoc, Matrix.mul_nonsing_inv _ h]
  refine ⟨?_, ?_, ?_, ?_⟩
  · rw [hAP, Matrix.one_mul]
  · rw [Matrix.mul_assoc, hAP, Matrix.mul_one]
  · rw [hAP, Matrix.transpose_one]
  · have hsymm : (J * Jᵀ)ᵀ = J * Jᵀ := by
      rw [Matrix.transpose_mul, Matrix.transpose_transpose]
    rw [pinv, Matrix.transpose_mul, Matrix.transpose_mul,
      Matrix.transpose_transpose, Matrix.transpose_nonsing_inv, hsymm,
      Matrix.mul_assoc]

theorem reshapeRow_gram_isUnit {m : ℕ} (r : Fin m → ℚ) (hr : r ≠ 0) :
    IsUnit ((reshapeRow r) * (reshapeRow r)ᵀ).det := by
  rw [Matrix.det_fin_one, Matrix.mul_apply]
  simp only [reshapeRow, Matrix.transpose_apply, Matrix.of_apply]
  rw [isUnit_iff_ne_zero]
  intro hsum
  apply hr
  funext j
  have hterm := (Finset.sum_eq_zero_iff_of_nonneg
    (fun i _ => mul_self_nonneg (r i))).mp hsum j (Finset.mem_univ j)
  exact mul_self_eq_zero.mp hterm

/-- Claim C4: one call to the Newton corrector returns
`estimate − pinv(J) · H(estimate)` where `J = track.gradient(estimate)`,
reshaped to a 1×(n+1) row matrix when the track returns a bare vector, and
`pinv` is the Moore–Penrose pseudo-inverse (its four Penrose equations hold
for the full-row-rank J of the contract, in both the 2-D and the reshaped
1-D branch); `correct` performs exactly this one iterate per call — the
stated equation is the whole of `correct`, the iteration lives in the outer
loop of `trace` (claim C1). -/
theorem claim_C4_newton_corrector {n m : ℕ}
    (gradient : (Fin m → ℚ) → Matrix (Fin n) (Fin m) ℚ)
    (homotopy : (Fin m → ℚ) → Fin n → ℚ) (estimate : Fin m → ℚ)
    (hrank : IsUnit ((gradient estimate) * (gradient estimate)ᵀ).det) :
    correctNewton gradient homotopy estimate
        = estimate - (pinv (gradient estimate)).mulVec (homotopy estimate)
      ∧ IsMoorePenrose (gradient estimate) (pinv (gradient estimate))
      ∧ (∀ (gv : (Fin m → ℚ) → Fin m → ℚ) (hv : (Fin m → ℚ) → ℚ),
          correctNewtonVec gv hv estimate
            = estimate
              - (pinv (reshapeRow (gv estimate))).mulVec (fun _ => hv estimate))
      ∧ ∀ (gv : (Fin m → ℚ) → Fin m → ℚ), gv estimate ≠ 0 →
          IsMoorePenrose (reshapeRow (gv estimate)) (pinv (reshapeRow (gv estimate))) :=
  ⟨rfl, pinv_isMoorePenrose _ hrank, fun _ _ => rfl,
    fun _ hne => pinv_isMoorePenrose _ (reshapeRow_gram_isUnit _ hne)⟩

/-- Witness for C4 at the 1×2 Jacobian [[1, 0]] (full row rank). -/
theorem claim_C4_witness :
    IsMoorePenrose !![(1 : ℚ), 0] (pinv !![(1 : ℚ), 0]) :=
  (claim_C4_newton_corrector (fun _ => !![(1 : ℚ), 0]) (fun _ _ => 0) (fun _ => 0)
    (by
      have hone : (!![(1 : ℚ), 0]) * (!![(1 : ℚ), 0])ᵀ = !![(1 : ℚ)] := by
        ext i j
        fin_cases i
        fin_cases j
        simp [Matrix.mul_apply, Fin.sum_univ_two]
      rw [hone, Matrix.det_fin_one_of]
      exact isUnit_one)).2.1

/-! ## claim C9: the Euler predictor reads the step size afresh -/

/-- Claim C9: `EulerNewton.predict(track, point)` returns
`point + cur_step_size · track.tangent(point)`, with `cur_step_size` read
from the step adjuster on this very call: the prediction is exactly that
expression over the adjuster state passed in, it depends on the adjuster
state only through its current step size (so a change of the adjuster's
step state takes effect on the very next prediction), and the reference
`ConstantStep` adjuster reports its constructed `h` and never changes
state under `adjust`. -/
theorem claim_C9_euler_predictor {σ τ : Type} (A : StepAdjusterOps σ τ)
    (tangent : τ → List ℚ → List ℚ × τ) (a : σ) (t : τ) (p : List ℚ) :
    predictEuler A tangent a t p
        = (p.zipWith (fun x v => x + A.cur_step_size a * v) (tangent t p).1,
            (tangent t p).2)
      ∧ (∀ a', A.cur_step_size a' = A.cur_step_size a →
          predictEuler A tangent a' t p = predictEuler A tangent a t p)
      ∧ ∀ h : ℚ, (constantStepOps τ).cur_step_size ⟨h⟩ = h
          ∧ ∀ t' p', (constantStepOps τ).adjust ⟨h⟩ t' p' = ⟨h⟩ := by
  refine ⟨rfl, ?_, fun h => ⟨rfl, fun _ _ => rfl⟩⟩
  intro a' ha
  simp only [predictEuler, ha]

/-- Witness for C9: two distinct adjuster states with the same current step
size yield the same prediction. -/
theorem claim_C9_witness :
    predictEuler (fstStepOps ℕ) (fun t _ => ([5], t)) (2, 99) 0 [1]
      = predictEuler (fstStepOps ℕ) (fun t _ => ([5], t)) (2, 0) 0 [1] :=
  (claim_C9_euler_predictor (fstStepOps ℕ) (fun t _ => ([5], t)) (2, 0) 0 [1]).2.1
    (2, 99) rfl

/-! ## claim C10: the tracer criterion never reads its tol -/

theorem tracerConvergedS_tol_transport (s : SimpleTracerState) (t' : ℚ)
    (p : List ℚ) (f : ℚ) :
    tracerConvergedS { s with tol := t' } p f
      = (tracerConvergedS s p f).map (fun r => (r.1, { r.2 with tol := t' })) := by
  rw [tracerConvergedS, tracerConvergedS]
  by_cases hit : s.maxiters < s.iter
  · simp [hit, Except.map]
  · simp [hit, Except.map, tracerBump]

theorem runTracerCalls_tol (t' : ℚ) :
    ∀ (calls : List (List ℚ × ℚ)) (s : SimpleTracerState),
      runTracerCalls { s with tol := t' } calls
        = (runTracerCalls s calls).map (fun r => (r.1, { r.2 with tol := t' }))
  | [], s => by simp [runTracerCalls, Except.map]
  | (p, f) :: rest, s => by
    simp only [runTracerCalls, tracerConvergedS_tol_transport]
    cases hc : tracerConvergedS s p f with
    | error e => simp [Except.map]
    | ok bs =>
      obtain ⟨b, s'⟩ := bs
      simp only [Except.map]
      rw [runTracerCalls_tol t' rest s']
      cases hr : runTracerCalls s' rest with
      | error e => simp [Except.map]
      | ok r => simp [Except.map]

/-- Claim C10: the outcome of `SimpleTracerConvCriterion.converged` — the
boolean returned and whether `FailedToConverge` is raised — depends only on
the iteration counter, the configured `maxiters`, the point's λ-component
and the track's `final_param()`; the `tol` stored at construction is never
read, so two instances differing only in `tol` behave identically (same
booleans, same raises, same states up to the `tol` field) on every call
sequence. -/
theorem claim_C10_tol_never_read (s : SimpleTracerState) (t' : ℚ)
    (calls : List (List ℚ × ℚ)) :
    runTracerCalls { s with tol := t' } calls
        = (runTracerCalls s calls).map (fun r => (r.1, { r.2 with tol := t' }))
      ∧ ∀ (s₁ s₂ : SimpleTracerState) (p₁ p₂ : List ℚ) (f : ℚ),
          s₁.iter = s₂.iter → s₁.maxiters = s₂.maxiters →
          lastComp p₁ = lastComp p₂ →
          (tracerConvergedS s₁ p₁ f).map Prod.fst
            = (tracerConvergedS s₂ p₂ f).map Prod.fst := by
  refine ⟨runTracerCalls_tol t' calls s, ?_⟩
  intro s₁ s₂ p₁ p₂ f h1 h2 h3
  by_cases hit : s₂.maxiters < s₂.iter
  · rw [tracerConvergedS, tracerConvergedS, if_pos (by omega), if_pos hit]
  · rw [tracerConvergedS, tracerConvergedS, if_neg (by omega), if_neg hit]
    simp [Except.map, h3]

/-- Witness for C10: two tracer criteria differing in `tol` (and arc) agree
on a concrete call sequence and on a concrete single call. -/
theorem claim_C10_witness :
    (runTracerCalls { tol := 7, maxiters := 1, iter := 0, sol_arc := [] }
          [([1, 2], 3)]
        = (runTracerCalls { tol := 0, maxiters := 1, iter := 0, sol_arc := [] }
            [([1, 2], 3)]).map (fun r => (r.1, { r.2 with tol := 7 })))
      ∧ (tracerConvergedS { tol := 0, maxiters := 5, iter := 1, sol_arc := [] }
            [1, 2] 3).map Prod.fst
        = (tracerConvergedS { tol := 9, maxiters := 5, iter := 1, sol_arc := [[4]] }
            [9, 2] 3).map Prod.fst := by
  have h := claim_C10_tol_never_read ⟨0, 1, 0, []⟩ 7 [([1, 2], 3)]
  exact ⟨h.1, h.2 ⟨0, 5, 1, []⟩ ⟨9, 5, 1, [[4]]⟩ [1, 2] [9, 2] 3 rfl rfl rfl⟩

/-! ## claim C8: `initial_point` and its propagation through `trace` -/

/-- Claim C8 is a code bug, not a property of the code as written: the claim
(and the spec) promise that `initial_point()` returns the configured point
extended with λ₀, or fails with `NotSupported` (`NotImplementedError`) only
when no starting point was configured.  The code instead raises
`AttributeError` in both cases, because `__init__` assigns
`self.init_root` while `initial_point` reads `self._init_root`, which is
never assigned.  This theorem evaluates the embedding at both kinds of
track and also proves the claim's propagation half: `trace` forwards an
`initial_point` failure unchanged, leaving all component state untouched. -/
theorem claim_C8_initial_point_bug :
    (∀ (root : List ℚ) (q0 q1 : ℚ) (pt : List ℚ),
        AutoHomotopyTrackObj.initial_point ⟨some root, q0, q1, pt⟩
          = .error .attributeError)
      ∧ (∀ (q0 q1 : ℚ) (pt : List ℚ),
          AutoHomotopyTrackObj.initial_point ⟨none, q0, q1, pt⟩
            = .error .attributeError)
      ∧ ∀ {π τ σtr σco σad : Type} (ops : PCOps π τ σtr σco σad) (fO fI : ℕ)
          (s : PCState τ σtr σco σad) (e : PyErr),
          ops.initial_point s.track = .error e → trace ops fO fI s = (.error e, s) := by
  refine ⟨fun _ _ _ _ => rfl, fun _ _ _ => rfl, ?_⟩
  intro π τ σtr σco σad ops fO fI s e he
  rw [trace, he]

/-- Witness for C8's propagation half: a trace over an `AutoHomotopyTrack`
configured WITH a starting point still fails, with `AttributeError`. -/
theorem claim_C8_witness :
    trace autoOps 5 5 ⟨⟨some [1], 0, 1, [0, 1]⟩, (), (), ()⟩
      = (.error .attributeError, ⟨⟨some [1], 0, 1, [0, 1]⟩, (), (), ()⟩) :=
  claim_C8_initial_point_bug.2.2 autoOps 5 5 _ .attributeError rfl

end Homotopy
